import Mathlib

/-!
Verification of the cost-aware parallel SFC placement core (MSG construction,
feasible-chain search, resource reservation, backup orchestration).

The Python source is shallowly embedded: the substrate graph is abstracted by
its query interface (`has_path`, delay-weighted shortest-path delay and cost),
mutable `PhysicalNode` objects become explicit ledger passing (a
`List PhysicalNode` indexed by host id, as in the source's `physical_nodes`
list), and the networkx `DiGraph` MSG becomes an edge relation with delay and
cost labels. Python integers are embedded as `Int` (ids and stage indices as
`Nat`). The not-found signal (`None`) is `Option.none`.
-/

set_option maxHeartbeats 1600000

namespace SFC

/-- Abstract substrate-graph query interface: reachability and the totals of
the delay-weighted shortest path (delay and cost sums along that path), as
used by the source through `nx.has_path` / `nx.shortest_path(weight='delay')`. -/
structure Graph where
  has_path : Nat → Nat → Bool
  sp_delay : Nat → Nat → Int
  sp_cost : Nat → Nat → Int

/-- Python `PhysicalNode.__init__`: id, cpu capacity, used cpu, activation flag. -/
structure PhysicalNode where
  id : Nat
  cpu : Int
  used_cpu : Int
  activated : Bool
deriving DecidableEq, Repr

instance : Inhabited PhysicalNode := ⟨⟨0, 0, 0, false⟩⟩

/-- Python `PhysicalNode.has_resources`: `(self.cpu - self.used_cpu) >= required`. -/
def PhysicalNode.has_resources (n : PhysicalNode) (required : Int) : Bool :=
  required ≤ n.cpu - n.used_cpu

/-- Python `PhysicalNode.reserve`: set the activation flag and add the required cpu. -/
def PhysicalNode.reserve (n : PhysicalNode) (required : Int) : PhysicalNode :=
  { n with activated := true, used_cpu := n.used_cpu + required }

/-- Python `PhysicalNode.reset`: clear usage and activation. -/
def PhysicalNode.reset (n : PhysicalNode) : PhysicalNode :=
  { n with used_cpu := 0, activated := false }

/-- Python `SFCRequest.__init__`: request id, source and destination host ids, ordered
per-stage cpu demands, bandwidth demand, delay budget. -/
structure SFCRequest where
  id : Nat
  src : Nat
  dest : Nat
  stages : List Int
  bw : Int
  max_delay : Int
deriving DecidableEq, Repr

/-- A vertex `f"{node.id}_s{stage_idx}"` of the multi-stage graph together with
its node attributes `physical`, `stage`, `cpu` (the naming scheme is injective,
so the vertex is represented by its attributes). -/
structure CandidateVertex where
  physical : Nat
  stage : Nat
  cpu : Int
deriving DecidableEq, Repr

instance : Inhabited CandidateVertex := ⟨⟨0, 0, 0⟩⟩

/-- The multi-stage graph proper: a directed edge relation between candidate
vertices with delay and cost labels (`MSG.has_edge`, `MSG[u][v]['delay']`,
`MSG[u][v]['cost']`). -/
structure MSG where
  hasEdge : CandidateVertex → CandidateVertex → Bool
  edgeDelay : CandidateVertex → CandidateVertex → Int
  edgeCost : CandidateVertex → CandidateVertex → Int

-- === MSG construction (`construct_msg`) ===

/-- Stage-candidate lists of `construct_msg`: for each stage (demand `cpu_req`),
all physical nodes that pass `has_resources` and are not excluded, in the order
of the `physical_nodes` list; the counter `k` is the stage index. -/
def mkStageNodes (physical_nodes : List PhysicalNode) (used_nodes : List Nat) :
    Nat → List Int → List (List CandidateVertex)
  | _, [] => []
  | k, cpu_req :: rest =>
      ((physical_nodes.filter
          (fun n => n.has_resources cpu_req && !(used_nodes.contains n.id))).map
        (fun n => ⟨n.id, k, cpu_req⟩)) :: mkStageNodes physical_nodes used_nodes (k + 1) rest

/-- The edge list built by `construct_msg`'s double loop over consecutive
stages: an edge from `u` (stage `i`) to `v` (stage `i+1`) whenever their
physical ids differ and a substrate path exists, labeled with the
delay-weighted shortest path's delay and cost totals. -/
def msgEdgeList (Gp : Graph) (stage_nodes : List (List CandidateVertex)) :
    List (CandidateVertex × CandidateVertex × Int × Int) :=
  (List.range (stage_nodes.length - 1)).flatMap (fun i =>
    (stage_nodes.getD i []).flatMap (fun u =>
      (stage_nodes.getD (i + 1) []).filterMap (fun v =>
        if u.physical ≠ v.physical ∧ Gp.has_path u.physical v.physical = true then
          some (u, v, Gp.sp_delay u.physical v.physical, Gp.sp_cost u.physical v.physical)
        else none)))

/-- The MSG determined by an edge list. -/
def msgOf (Gp : Graph) (stage_nodes : List (List CandidateVertex)) : MSG :=
  { hasEdge := fun u v =>
      (msgEdgeList Gp stage_nodes).any (fun e => e.1 == u && e.2.1 == v)
    edgeDelay := fun u v =>
      (((msgEdgeList Gp stage_nodes).find? (fun e => e.1 == u && e.2.1 == v)).map
        (fun e => e.2.2.1)).getD 0
    edgeCost := fun u v =>
      (((msgEdgeList Gp stage_nodes).find? (fun e => e.1 == u && e.2.1 == v)).map
        (fun e => e.2.2.2)).getD 0 }

/-- Source `construct_msg`: build the per-stage candidate lists and the MSG over them.
The ledger (`physical_nodes`) is only read, never returned modified. -/
def construct_msg (Gp : Graph) (sfc : SFCRequest) (physical_nodes : List PhysicalNode)
    (used_nodes : List Nat) : MSG × List (List CandidateVertex) :=
  let stage_nodes := mkStageNodes physical_nodes used_nodes 0 sfc.stages
  (msgOf Gp stage_nodes, stage_nodes)

-- === Feasible path search (`find_feasible_path`) ===

/-- Python `itertools.product(*stage_nodes)`: all selections of one element per list,
in lexicographic enumeration order (leftmost position most significant). -/
def listProd {α : Type} : List (List α) → List (List α)
  | [] => [[]]
  | l :: ls => l.flatMap (fun x => (listProd ls).map (fun xs => x :: xs))

/-- The `physical_seen` duplicate scan of `find_feasible_path`: `true` iff no
physical id occurs twice. -/
def allDistinct : List Nat → Bool
  | [] => true
  | x :: xs => !(xs.contains x) && allDistinct xs

/-- The consecutive-edge scan of `find_feasible_path`: every consecutive pair
of the selected vertices is an MSG edge. -/
def chainEdgesOk (M : MSG) : List CandidateVertex → Bool
  | u :: v :: rest => M.hasEdge u v && chainEdgesOk M (v :: rest)
  | _ => true

/-- Sum of the MSG edge delays along consecutive pairs. -/
def chainDelay (M : MSG) : List CandidateVertex → Int
  | u :: v :: rest => M.edgeDelay u v + chainDelay M (v :: rest)
  | _ => 0

/-- Sum of the MSG edge costs along consecutive pairs. -/
def chainCost (M : MSG) : List CandidateVertex → Int
  | u :: v :: rest => M.edgeCost u v + chainCost M (v :: rest)
  | _ => 0

/-- The ingress/egress term of `find_feasible_path`: the shortest-path delay
and cost from `a` to `b` when `b` differs from `a` and a substrate path
exists, and `(0, 0)` otherwise (also, silently, when no path exists). -/
def endpointTerm (Gp : Graph) (a b : Nat) : Int × Int :=
  if b ≠ a ∧ Gp.has_path a b = true then (Gp.sp_delay a b, Gp.sp_cost a b) else (0, 0)

/-- Total delay of a candidate chain: inter-stage MSG edge delays plus the
ingress (source → first host) and egress (last host → destination) terms. -/
def totalDelay (M : MSG) (sfc : SFCRequest) (Gp : Graph) (path : List CandidateVertex) : Int :=
  chainDelay M path + (endpointTerm Gp sfc.src path.headI.physical).1
    + (endpointTerm Gp (path.getLastD default).physical sfc.dest).1

/-- Total cost of a candidate chain, analogously to `totalDelay`. -/
def totalCost (M : MSG) (sfc : SFCRequest) (Gp : Graph) (path : List CandidateVertex) : Int :=
  chainCost M path + (endpointTerm Gp sfc.src path.headI.physical).2
    + (endpointTerm Gp (path.getLastD default).physical sfc.dest).2

/-- The filters of `find_feasible_path`: pairwise-distinct physical ids, an MSG
edge between every consecutive pair, and total delay within the budget. -/
def validChain (M : MSG) (sfc : SFCRequest) (Gp : Graph) (path : List CandidateVertex) : Bool :=
  allDistinct (path.map (fun v => v.physical)) && chainEdgesOk M path
    && decide (totalDelay M sfc Gp path ≤ sfc.max_delay)

/-- The loop body of `find_feasible_path`: evaluate one selection from the
Cartesian product, keeping it (with its total delay and cost) iff it passes
the distinctness, connectivity and delay filters. -/
def evalPath (M : MSG) (sfc : SFCRequest) (Gp : Graph) (path : List CandidateVertex) :
    Option (List CandidateVertex × Int × Int) :=
  if allDistinct (path.map (fun v => v.physical)) && chainEdgesOk M path then
    let st := endpointTerm Gp sfc.src path.headI.physical
    let dt := endpointTerm Gp (path.getLastD default).physical sfc.dest
    let total_delay := chainDelay M path + st.1 + dt.1
    let total_cost := chainCost M path + st.2 + dt.2
    if total_delay ≤ sfc.max_delay then some (path, total_delay, total_cost) else none
  else none

/-- One entry of the `paths` list of `find_feasible_path`: a surviving chain
with its total delay and total cost. -/
abbrev SearchResult := List CandidateVertex × Int × Int

/-- One comparison step of Python's `min` with `key=lambda x: x[2]`: replace
the current best only on a strictly smaller cost (ties keep the earlier). -/
def minStep (b y : SearchResult) : SearchResult :=
  if y.2.2 < b.2.2 then y else b

/-- Python `min(paths, key=lambda x: x[2])` over a possibly empty list: the first
element of minimum cost (Python's `min` keeps the earlier element on ties),
`none` on the empty list. -/
def pickMin : List SearchResult → Option SearchResult
  | [] => none
  | x :: xs => some (xs.foldl minStep x)

/-- Source `find_feasible_path` (MSG.py): enumerate the Cartesian product of the
stage-candidate lists, keep the survivors of the filters with their totals,
and return the first minimum-cost survivor, or `None`. -/
def find_feasible_path (M : MSG) (stage_nodes : List (List CandidateVertex))
    (sfc : SFCRequest) (Gp : Graph) : Option (List CandidateVertex × Int × Int) :=
  pickMin ((listProd stage_nodes).filterMap (evalPath M sfc Gp))

/-- The loop body of the brute-force script's `find_feasible_path`, which is
identical except that no ingress/egress terms are added. -/
def evalPathBF (M : MSG) (sfc : SFCRequest) (path : List CandidateVertex) :
    Option (List CandidateVertex × Int × Int) :=
  if allDistinct (path.map (fun v => v.physical)) && chainEdgesOk M path then
    if chainDelay M path ≤ sfc.max_delay then
      some (path, chainDelay M path, chainCost M path)
    else none
  else none

/-- Filters of the brute-force script's `find_feasible_path`. -/
def validChainBF (M : MSG) (sfc : SFCRequest) (path : List CandidateVertex) : Bool :=
  allDistinct (path.map (fun v => v.physical)) && chainEdgesOk M path
    && decide (chainDelay M path ≤ sfc.max_delay)

/-- Source `find_feasible_path` (brute-force_SFC_placement.py). -/
def find_feasible_path_bf (M : MSG) (stage_nodes : List (List CandidateVertex))
    (sfc : SFCRequest) : Option (List CandidateVertex × Int × Int) :=
  pickMin ((listProd stage_nodes).filterMap (evalPathBF M sfc))

-- === Reservation (`reserve_resources`) ===

/-- Constant `NODE_ACTIVATION_COST`. -/
def NODE_ACTIVATION_COST : Int := 2

/-- Constant `PE_DEPLOY_UNIT_COST`. -/
def PE_DEPLOY_UNIT_COST : Int := 1

/-- Source `reserve_resources`: walk the chain; for each vertex charge the activation
cost if its host (the ledger entry at index `physical`) is not yet activated,
always charge `cpu * PE_DEPLOY_UNIT_COST`, and perform `node.reserve(cpu)`.
Returns the accumulated extra cost and the mutated ledger. -/
def reserve_resources : List CandidateVertex → List PhysicalNode → Int × List PhysicalNode
  | [], L => (0, L)
  | v :: rest, L =>
      let node := L.getD v.physical default
      let act : Int := if node.activated then 0 else NODE_ACTIVATION_COST
      let L1 := L.set v.physical (node.reserve v.cpu)
      let r := reserve_resources rest L1
      (act + v.cpu * PE_DEPLOY_UNIT_COST + r.1, r.2)

-- === Batch simulation (`run_simulation` loop body) ===

/-- One per-request placement record (the dictionary appended to `placements`
by `run_simulation`). -/
structure Placement where
  source : Nat
  destination : Nat
  sfc_id : Nat
  active_path : List CandidateVertex
  active_delay : Int
  active_cost : Int
  backup_path : List CandidateVertex
  backup_delay : Int
  backup_cost : Int
  deploy_cost_active : Int
  deploy_cost_backup : Int
  backup_delay_cost : Int
  total_cost : Int
deriving DecidableEq, Repr

/-- The backup-delay-cost loop of `run_simulation`: over the stage-wise zip of
active and backup chains, sum the shortest-path delay between the two hosts
(contributing nothing when no substrate path exists). -/
def backupDelayCost (Gp : Graph) : List CandidateVertex → List CandidateVertex → Int
  | a :: as_, b :: bs =>
      (if Gp.has_path a.physical b.physical = true then Gp.sp_delay a.physical b.physical else 0)
      + backupDelayCost Gp as_ bs
  | _, _ => 0

/-- The placement record of a request whose backup search returned `None`. -/
def mkRecordNoBackup (sfc : SFCRequest) (pa : List CandidateVertex) (da ca eca : Int) :
    Placement :=
  ⟨sfc.src, sfc.dest, sfc.id, pa, da, ca, [], 0, 0, eca, 0, 0, ca + eca⟩

/-- The placement record of a request with both chains committed. -/
def mkRecordBackup (Gp : Graph) (sfc : SFCRequest) (pa : List CandidateVertex)
    (da ca eca : Int) (pb : List CandidateVertex) (db cb ecb : Int) : Placement :=
  ⟨sfc.src, sfc.dest, sfc.id, pa, da, ca, pb, db, cb, eca, ecb,
    backupDelayCost Gp pa pb,
    ca + cb + eca + ecb + backupDelayCost Gp pa pb⟩

/-- The body of `run_simulation`'s per-request loop: construct the active MSG,
short-circuit if a stage list is empty, search, commit the active chain,
rerun construction and search with the active hosts excluded, and commit the
backup if found. Returns the updated ledger, the optional placement record
(`none` when the request fails), and the list of ledger states right after
each reservation commit. -/
def process_request (Gp : Graph) (L : List PhysicalNode) (sfc : SFCRequest) :
    List PhysicalNode × Option Placement × List (List PhysicalNode) :=
  let ma := construct_msg Gp sfc L []
  if ma.2.all (fun s => !s.isEmpty) then
    match find_feasible_path ma.1 ma.2 sfc Gp with
    | none => (L, none, [])
    | some (path_active, delay_active, cost_active) =>
      let ra := reserve_resources path_active L
      let mb := construct_msg Gp sfc ra.2 (path_active.map (fun v => v.physical))
      match find_feasible_path mb.1 mb.2 sfc Gp with
      | none =>
          (ra.2, some (mkRecordNoBackup sfc path_active delay_active cost_active ra.1),
            [ra.2])
      | some (path_backup, delay_backup, cost_backup) =>
        let rb := reserve_resources path_backup ra.2
        (rb.2, some (mkRecordBackup Gp sfc path_active delay_active cost_active ra.1
          path_backup delay_backup cost_backup rb.1), [ra.2, rb.2])
  else (L, none, [])

/-- The batch loop of `run_simulation`: process the requests in order,
threading the ledger; collect the placement records (failed requests
contribute none) and all post-commit ledger states. -/
def run_batch (Gp : Graph) : List SFCRequest → List PhysicalNode →
    List PhysicalNode × List Placement × List (List PhysicalNode)
  | [], L => (L, [], [])
  | sfc :: rest, L =>
      let st := process_request Gp L sfc
      let rst := run_batch Gp rest st.1
      (rst.1, st.2.1.toList ++ rst.2.1, st.2.2 ++ rst.2.2)

-- === Ledger well-formedness and the capacity invariant ===

/-- The entry of the `physical_nodes` list at position `k + i` carries id
`k + i` (with `k = 0`: ids equal list indices, as `run_simulation` builds it). -/
def wfFrom (k : Nat) : List PhysicalNode → Bool
  | [] => true
  | n :: rest => n.id == k && wfFrom (k + 1) rest

/-- The capacity invariant: every host's used cpu is within its capacity. -/
def CapOK (L : List PhysicalNode) : Prop := ∀ n ∈ L, n.used_cpu ≤ n.cpu

instance (L : List PhysicalNode) : Decidable (CapOK L) := by
  unfold CapOK; infer_instance

-- === Helper lemmas: the Cartesian product ===

theorem mem_listProd_cons {α : Type} (l : List α) (ls : List (List α)) (p : List α) :
    p ∈ listProd (l :: ls) ↔ ∃ x ∈ l, ∃ q ∈ listProd ls, p = x :: q := by
  simp only [listProd, List.mem_flatMap, List.mem_map]
  constructor
  · rintro ⟨x, hx, q, hq, rfl⟩
    exact ⟨x, hx, q, hq, rfl⟩
  · rintro ⟨x, hx, q, hq, rfl⟩
    exact ⟨x, hx, q, hq, rfl⟩

theorem length_of_mem_listProd {α : Type} (sn : List (List α)) (p : List α)
    (h : p ∈ listProd sn) : p.length = sn.length := by
  induction sn generalizing p with
  | nil => simp only [listProd, List.mem_singleton] at h; simp [h]
  | cons l ls ih =>
      rcases (mem_listProd_cons l ls p).1 h with ⟨x, _, q, hq, rfl⟩
      simp [ih q hq]

theorem stages_of_mem_listProd {α : Type} (sn : List (List α)) (p : List α)
    (h : p ∈ listProd sn) : ∀ v ∈ p, ∃ s ∈ sn, v ∈ s := by
  induction sn generalizing p with
  | nil => simp only [listProd, List.mem_singleton] at h; subst h; simp
  | cons l ls ih =>
      rcases (mem_listProd_cons l ls p).1 h with ⟨x, hx, q, hq, rfl⟩
      intro v hv
      rcases List.mem_cons.1 hv with rfl | hv
      · exact ⟨l, List.mem_cons_self _ _, hx⟩
      · rcases ih q hq v hv with ⟨s, hs, hvs⟩
        exact ⟨s, List.mem_cons_of_mem _ hs, hvs⟩

theorem listProd_of_nil_mem {α : Type} (sn : List (List α)) (h : [] ∈ sn) :
    listProd sn = [] := by
  induction sn with
  | nil => simp at h
  | cons l ls ih =>
      rcases List.mem_cons.1 h with rfl | h
      · simp [listProd]
      · simp [listProd, ih h]

-- === Helper lemmas: Python's first-minimum selection ===

theorem foldl_minStep_spec (xs : List SearchResult) : ∀ b : SearchResult,
    ∃ pre post, b :: xs = pre ++ (xs.foldl minStep b) :: post
      ∧ (∀ y ∈ pre, (xs.foldl minStep b).2.2 < y.2.2)
      ∧ (∀ y ∈ b :: xs, (xs.foldl minStep b).2.2 ≤ y.2.2) := by
  induction xs with
  | nil =>
      intro b
      exact ⟨[], [], rfl, by simp, by simp⟩
  | cons y ys ih =>
      intro b
      have hfold : (y :: ys).foldl minStep b = ys.foldl minStep (minStep b y) := rfl
      rcases ih (minStep b y) with ⟨pre, post, hdec, hpre, hmin⟩
      by_cases h : y.2.2 < b.2.2
      · have hstep : minStep b y = y := by simp [minStep, h]
        rw [hstep] at hdec hpre hmin
        refine ⟨b :: pre, post, ?_, ?_, ?_⟩
        · rw [hfold, hstep]
          simpa using congrArg (b :: ·) hdec
        · intro z hz
          rw [hfold, hstep]
          rcases List.mem_cons.1 hz with rfl | hz
          · exact lt_of_le_of_lt (hmin y (List.mem_cons_self _ _)) h
          · exact hpre z hz
        · intro z hz
          rw [hfold, hstep]
          rcases List.mem_cons.1 hz with rfl | hz
          · exact le_of_lt (lt_of_le_of_lt (hmin y (List.mem_cons_self _ _)) h)
          · exact hmin z hz
      · have hstep : minStep b y = b := by simp [minStep, h]
        rw [hstep] at hdec hpre hmin
        rcases pre with _ | ⟨z, pre'⟩
        · have hb : ys.foldl minStep b = b := by
            have := congrArg (fun l => l.headI) hdec
            simpa using this.symm
          refine ⟨[], y :: ys, ?_, by simp, ?_⟩
          · rw [hfold, hstep, hb]; rfl
          · intro z hz
            rw [hfold, hstep, hb]
            rcases List.mem_cons.1 hz with rfl | hz
            · exact le_refl _
            · rcases List.mem_cons.1 hz with rfl | hz
              · exact le_of_not_lt h
              · have := hmin z (List.mem_cons_of_mem _ hz)
                rwa [hb] at this
        · have hbz : b = z := by
            have := congrArg (fun l => l.headI) hdec
            simpa using this
          subst hbz
          have htail : ys = pre' ++ (ys.foldl minStep b) :: post := by
            have := congrArg (fun l => l.tail) hdec
            simpa using this
          refine ⟨b :: y :: pre', post, ?_, ?_, ?_⟩
          · rw [hfold, hstep]
            simpa using congrArg (fun l => b :: y :: l) htail
          · intro w hw
            rw [hfold, hstep]
            rcases List.mem_cons.1 hw with rfl | hw
            · exact hpre w (List.mem_cons_self _ _)
            · rcases List.mem_cons.1 hw with rfl | hw
              · exact lt_of_lt_of_le (hpre b (List.mem_cons_self _ _)) (le_of_not_lt h)
              · exact hpre w (List.mem_cons_of_mem _ hw)
          · intro w hw
            rw [hfold, hstep]
            rcases List.mem_cons.1 hw with rfl | hw
            · exact hmin w (List.mem_cons_self _ _)
            · rcases List.mem_cons.1 hw with rfl | hw
              · exact le_trans (hmin b (List.mem_cons_self _ _)) (le_of_not_lt h)
              · exact hmin w (List.mem_cons_of_mem _ hw)

theorem pickMin_eq_none_iff (l : List SearchResult) : pickMin l = none ↔ l = [] := by
  cases l with
  | nil => simp [pickMin]
  | cons x xs => simp [pickMin]

theorem pickMin_spec (l : List SearchResult) (r : SearchResult) (h : pickMin l = some r) :
    ∃ pre post, l = pre ++ r :: post ∧ (∀ y ∈ pre, r.2.2 < y.2.2)
      ∧ (∀ y ∈ l, r.2.2 ≤ y.2.2) := by
  cases l with
  | nil => simp [pickMin] at h
  | cons x xs =>
      have hr : xs.foldl minStep x = r := by simpa [pickMin] using h
      rcases foldl_minStep_spec xs x with ⟨pre, post, hdec, hpre, hmin⟩
      rw [hr] at hdec hpre hmin
      exact ⟨pre, post, hdec, hpre, hmin⟩

-- === Helper lemmas: filterMap decomposition ===

theorem filterMap_eq_append_cons {α β : Type} (f : α → Option β) (l : List α)
    (l₁ : List β) (x : β) (l₂ : List β) (h : l.filterMap f = l₁ ++ x :: l₂) :
    ∃ m₁ q m₂, l = m₁ ++ q :: m₂ ∧ f q = some x ∧ m₁.filterMap f = l₁ := by
  induction l generalizing l₁ with
  | nil => simp at h
  | cons a l' ih =>
      rcases ha : f a with _ | y
      · rw [List.filterMap_cons_none ha] at h
        rcases ih l₁ h with ⟨m₁, q, m₂, hdec, hq, hm₁⟩
        exact ⟨a :: m₁, q, m₂, by simp [hdec], hq, by simp [List.filterMap_cons_none ha, hm₁]⟩
      · rw [List.filterMap_cons_some ha] at h
        rcases l₁ with _ | ⟨z, l₁'⟩
        · simp only [List.nil_append, List.cons.injEq] at h
          exact ⟨[], a, l', by simp, by rw [ha, h.1], by simp⟩
        · simp only [List.cons_append, List.cons.injEq] at h
          rcases ih l₁' h.2 with ⟨m₁, q, m₂, hdec, hq, hm₁⟩
          exact ⟨a :: m₁, q, m₂, by simp [hdec], hq,
            by simp [List.filterMap_cons_some ha, hm₁, h.1]⟩

-- === Helper lemmas: the search characterized generically ===

theorem evalPath_eq (M : MSG) (sfc : SFCRequest) (Gp : Graph) (p : List CandidateVertex) :
    evalPath M sfc Gp p =
      if validChain M sfc Gp p = true then
        some (p, totalDelay M sfc Gp p, totalCost M sfc Gp p)
      else none := by
  unfold evalPath validChain totalDelay totalCost
  by_cases h1 : allDistinct (p.map (fun v => v.physical)) && chainEdgesOk M p
  · simp only [h1, if_true, Bool.true_and]
    by_cases h2 : chainDelay M p + (endpointTerm Gp sfc.src p.headI.physical).1
        + (endpointTerm Gp (p.getLastD default).physical sfc.dest).1 ≤ sfc.max_delay
    · simp [h2]
    · simp [h2]
  · simp [h1]

theorem evalPathBF_eq (M : MSG) (sfc : SFCRequest) (p : List CandidateVertex) :
    evalPathBF M sfc p =
      if validChainBF M sfc p = true then
        some (p, chainDelay M p, chainCost M p)
      else none := by
  unfold evalPathBF validChainBF
  by_cases h1 : allDistinct (p.map (fun v => v.physical)) && chainEdgesOk M p
  · simp only [h1, if_true, Bool.true_and]
    by_cases h2 : chainDelay M p ≤ sfc.max_delay
    · simp [h2]
    · simp [h2]
  · simp [h1]

/-- Full characterization of `pickMin ∘ filterMap eval` for any evaluator of
the survivor-or-none shape: `none` exactly when no selection survives;
otherwise the returned survivor carries its own delay and cost, its cost is
minimal among all survivors, and every earlier selection in enumeration order
that survives costs strictly more. -/
theorem search_spec (eval : List CandidateVertex → Option SearchResult)
    (valid : List CandidateVertex → Bool) (D C : List CandidateVertex → Int)
    (heval : ∀ p, eval p = if valid p = true then some (p, D p, C p) else none)
    (sn : List (List CandidateVertex)) :
    (pickMin ((listProd sn).filterMap eval) = none ↔
       ∀ p ∈ listProd sn, valid p = false)
    ∧ (∀ p d c, pickMin ((listProd sn).filterMap eval) = some (p, d, c) →
        p ∈ listProd sn ∧ valid p = true ∧ d = D p ∧ c = C p
        ∧ (∀ q ∈ listProd sn, valid q = true → c ≤ C q)
        ∧ ∃ l1 l2, listProd sn = l1 ++ p :: l2
            ∧ ∀ q ∈ l1, valid q = true → c < C q) := by
  constructor
  · rw [pickMin_eq_none_iff, List.filterMap_eq_nil_iff]
    constructor
    · intro h p hp
      have := h p hp
      rw [heval p] at this
      by_contra hv
      simp [eq_true_of_ne_false hv] at this
    · intro h p hp
      rw [heval p, h p hp]
      simp
  · intro p d c hsome
    rcases pickMin_spec _ _ hsome with ⟨pre, post, hdec, hpre, hmin⟩
    have hmem : (p, d, c) ∈ (listProd sn).filterMap eval := by
      rw [hdec]; exact List.mem_append_right _ (List.mem_cons_self _ _)
    rcases List.mem_filterMap.1 hmem with ⟨q, hq, hfq⟩
    rw [heval q] at hfq
    by_cases hv : valid q = true
    case neg => rw [if_neg hv] at hfq; exact absurd hfq (by simp)
    rw [if_pos hv] at hfq
    have h3 := Option.some.inj hfq
    have hqp : q = p := congrArg Prod.fst h3
    subst hqp
    have hd : d = D q := (congrArg (fun t => t.2.1) h3).symm
    have hc : c = C q := (congrArg (fun t => t.2.2) h3).symm
    refine ⟨hq, hv, hd, hc, ?_, ?_⟩
    · intro q' hq' hv'
      have hmem' : (q', D q', C q') ∈ (listProd sn).filterMap eval :=
        List.mem_filterMap.2 ⟨q', hq', by rw [heval q', if_pos hv']⟩
      simpa using hmin _ hmem'
    · rcases filterMap_eq_append_cons eval _ _ _ _ hdec with ⟨m₁, q₀, m₂, hdec', hq₀, hm₁⟩
      have hq₀' : q₀ = q := by
        rw [heval q₀] at hq₀
        by_cases hv0 : valid q₀ = true
        · rw [if_pos hv0] at hq₀
          exact congrArg Prod.fst (Option.some.inj hq₀)
        · rw [if_neg hv0] at hq₀; exact absurd hq₀ (by simp)
      rw [hq₀'] at hdec'
      refine ⟨m₁, m₂, hdec', ?_⟩
      intro q' hq' hv'
      have hmem' : (q', D q', C q') ∈ m₁.filterMap eval :=
        List.mem_filterMap.2 ⟨q', hq', by rw [heval q', if_pos hv']⟩
      rw [hm₁] at hmem'
      simpa using hpre _ hmem'

-- === Concrete instances used by the witnesses ===

/-- A fully connected three-host substrate with unit shortest-path totals. -/
def wG : Graph :=
  ⟨fun _ _ => true, fun a b => if a == b then 0 else 1, fun a b => if a == b then 0 else 1⟩

/-- A substrate with no path between any pair of hosts. -/
def wGnone : Graph := ⟨fun _ _ => false, fun _ _ => 5, fun _ _ => 7⟩

/-- A fresh three-host ledger of capacity 7 each. -/
def wL : List PhysicalNode :=
  [⟨0, 7, 0, false⟩, ⟨1, 7, 0, false⟩, ⟨2, 7, 0, false⟩]

/-- A two-stage request from host 0 to host 2. -/
def wSfc : SFCRequest := ⟨0, 0, 2, [2, 1], 10, 50⟩

/-- A single-stage request looping at host 0. -/
def wSfc1 : SFCRequest := ⟨1, 0, 0, [1], 10, 50⟩

-- === Claim theorems: the feasible-path search ===

/-- Claim C1: for every MSG and per-stage candidate lists, `find_feasible_path`
returns a chain drawn one vertex per stage whose total cost is minimal among
all candidate chains with pairwise-distinct host ids, MSG edges between all
consecutive pairs and total delay within the budget; ties are broken by
enumeration order over the Cartesian product (every strictly earlier valid
chain costs strictly more); and it returns `none` exactly when no valid chain
exists. The same characterization holds for the brute-force script's variant
`find_feasible_path_bf` with its totals (no ingress/egress terms). -/
theorem find_feasible_path_optimal (M : MSG) (stage_nodes : List (List CandidateVertex))
    (sfc : SFCRequest) (Gp : Graph) (_hne : stage_nodes ≠ []) :
    ((find_feasible_path M stage_nodes sfc Gp = none ↔
        ∀ p ∈ listProd stage_nodes, validChain M sfc Gp p = false)
      ∧ (∀ p d c, find_feasible_path M stage_nodes sfc Gp = some (p, d, c) →
          p ∈ listProd stage_nodes ∧ validChain M sfc Gp p = true
          ∧ d = totalDelay M sfc Gp p ∧ c = totalCost M sfc Gp p
          ∧ (∀ q ∈ listProd stage_nodes, validChain M sfc Gp q = true →
              c ≤ totalCost M sfc Gp q)
          ∧ ∃ l1 l2, listProd stage_nodes = l1 ++ p :: l2
              ∧ ∀ q ∈ l1, validChain M sfc Gp q = true → c < totalCost M sfc Gp q))
    ∧ ((find_feasible_path_bf M stage_nodes sfc = none ↔
        ∀ p ∈ listProd stage_nodes, validChainBF M sfc p = false)
      ∧ (∀ p d c, find_feasible_path_bf M stage_nodes sfc = some (p, d, c) →
          p ∈ listProd stage_nodes ∧ validChainBF M sfc p = true
          ∧ d = chainDelay M p ∧ c = chainCost M p
          ∧ (∀ q ∈ listProd stage_nodes, validChainBF M sfc q = true →
              c ≤ chainCost M q)
          ∧ ∃ l1 l2, listProd stage_nodes = l1 ++ p :: l2
              ∧ ∀ q ∈ l1, validChainBF M sfc q = true → c < chainCost M q)) :=
  ⟨search_spec (evalPath M sfc Gp) (validChain M sfc Gp) (totalDelay M sfc Gp)
      (totalCost M sfc Gp) (evalPath_eq M sfc Gp) stage_nodes,
    search_spec (evalPathBF M sfc) (validChainBF M sfc) (chainDelay M) (chainCost M)
      (evalPathBF_eq M sfc) stage_nodes⟩

/-- Witness for C1 at a concrete instance. -/
theorem find_feasible_path_optimal_witness :
    (construct_msg wG wSfc wL []).2 ≠ [] ∧
      (find_feasible_path (construct_msg wG wSfc wL []).1 (construct_msg wG wSfc wL []).2
          wSfc wG = none ↔
        ∀ p ∈ listProd (construct_msg wG wSfc wL []).2,
          validChain (construct_msg wG wSfc wL []).1 wSfc wG p = false) :=
  ⟨by decide,
    (find_feasible_path_optimal (construct_msg wG wSfc wL []).1
      (construct_msg wG wSfc wL []).2 wSfc wG (by decide)).1.1⟩

/-- Claim C5: for every surviving candidate chain, the recorded total delay is
the sum of the inter-stage MSG edge delays plus an ingress term and an egress
term (total cost analogously), where each endpoint term is zero when the chain
endpoint coincides with the request endpoint, equals the delay-weighted
shortest-path totals when they differ and a substrate path exists, and is
silently zero when they differ but no substrate path exists. -/
theorem surviving_chain_totals (M : MSG) (sfc : SFCRequest) (Gp : Graph)
    (p : List CandidateVertex) (_hp : p ≠ []) (r : SearchResult)
    (h : evalPath M sfc Gp p = some r) :
    r.2.1 = chainDelay M p + (endpointTerm Gp sfc.src p.headI.physical).1
        + (endpointTerm Gp (p.getLastD default).physical sfc.dest).1
    ∧ r.2.2 = chainCost M p + (endpointTerm Gp sfc.src p.headI.physical).2
        + (endpointTerm Gp (p.getLastD default).physical sfc.dest).2
    ∧ (∀ a b : Nat, b = a → endpointTerm Gp a b = (0, 0))
    ∧ (∀ a b : Nat, b ≠ a → Gp.has_path a b = true →
        endpointTerm Gp a b = (Gp.sp_delay a b, Gp.sp_cost a b))
    ∧ (∀ a b : Nat, b ≠ a → Gp.has_path a b = false → endpointTerm Gp a b = (0, 0)) := by
  rw [evalPath_eq] at h
  by_cases hv : validChain M sfc Gp p = true
  · rw [if_pos hv] at h
    obtain rfl : r = (p, totalDelay M sfc Gp p, totalCost M sfc Gp p) :=
      (Option.some.inj h).symm
    refine ⟨rfl, rfl, ?_, ?_, ?_⟩
    · intro a b hba; simp [endpointTerm, hba]
    · intro a b hba hpath; simp [endpointTerm, hba, hpath]
    · intro a b hba hpath; simp [endpointTerm, hba, hpath]
  · rw [if_neg hv] at h
    exact absurd h (by simp)

/-- Witness for C5: a chain whose first and last host are unreachable from the
request endpoints still survives, with zero ingress/egress contributions. -/
theorem surviving_chain_totals_witness :
    ([(⟨1, 0, 1⟩ : CandidateVertex)] ≠ ([] : List CandidateVertex))
    ∧ evalPath (construct_msg wGnone wSfc1 wL []).1 wSfc1 wGnone [⟨1, 0, 1⟩]
        = some ([⟨1, 0, 1⟩], 0, 0)
    ∧ (0 : Int) = chainDelay (construct_msg wGnone wSfc1 wL []).1 [⟨1, 0, 1⟩]
        + (endpointTerm wGnone wSfc1.src 1).1 + (endpointTerm wGnone 1 wSfc1.dest).1 := by
  refine ⟨by decide, by decide, ?_⟩
  have h := surviving_chain_totals (construct_msg wGnone wSfc1 wL []).1 wSfc1 wGnone
    [⟨1, 0, 1⟩] (by decide) ([⟨1, 0, 1⟩], 0, 0) (by decide)
  exact h.1

/-- Claim C8: feasibility is monotone in the delay budget: a candidate chain
surviving the filters of `find_feasible_path` under budget `d'` also survives,
with the same recorded delay and cost, under any budget `d ≥ d'` (all other
request fields unchanged). -/
theorem evalPath_monotone_budget (M : MSG) (Gp : Graph) (sfc : SFCRequest) (d d' : Int)
    (hdd : d' ≤ d) (p : List CandidateVertex) (r : SearchResult)
    (h : evalPath M { sfc with max_delay := d' } Gp p = some r) :
    evalPath M { sfc with max_delay := d } Gp p = some r := by
  rw [evalPath_eq] at h ⊢
  by_cases hv : validChain M { sfc with max_delay := d' } Gp p = true
  · rw [if_pos hv] at h
    have hv' : validChain M { sfc with max_delay := d } Gp p = true := by
      unfold validChain at hv ⊢
      simp only [Bool.and_eq_true] at hv ⊢
      rcases hv with ⟨h12, h3⟩
      refine ⟨h12, ?_⟩
      have hle : totalDelay M { sfc with max_delay := d' } Gp p ≤ d' :=
        of_decide_eq_true h3
      exact decide_eq_true (le_trans hle hdd)
    rw [if_pos hv']
    exact h
  · rw [if_neg hv] at h
    exact absurd h (by simp)

/-- Witness for C8 at a concrete instance. -/
theorem evalPath_monotone_budget_witness :
    evalPath (construct_msg wG wSfc wL []).1 { wSfc with max_delay := 50 } wG
        [⟨0, 0, 2⟩, ⟨2, 1, 1⟩]
      = some ([⟨0, 0, 2⟩, ⟨2, 1, 1⟩], 1, 1) :=
  evalPath_monotone_budget (construct_msg wG wSfc wL []).1 wG wSfc 50 5 (by decide)
    [⟨0, 0, 2⟩, ⟨2, 1, 1⟩] ([⟨0, 0, 2⟩, ⟨2, 1, 1⟩], 1, 1) (by decide)

/-- Claim C10: if any stage-candidate list is empty, the Cartesian product over
the stage lists is empty, so `find_feasible_path` itself examines no candidate
chain and returns the not-found signal. -/
theorem find_feasible_path_empty_stage (M : MSG) (stage_nodes : List (List CandidateVertex))
    (sfc : SFCRequest) (Gp : Graph) (h : [] ∈ stage_nodes) :
    listProd stage_nodes = [] ∧ find_feasible_path M stage_nodes sfc Gp = none := by
  have hp := listProd_of_nil_mem stage_nodes h
  refine ⟨hp, ?_⟩
  unfold find_feasible_path
  rw [hp]
  rfl

/-- Witness for C10 at a concrete instance. -/
theorem find_feasible_path_empty_stage_witness :
    listProd [[], [(⟨0, 1, 1⟩ : CandidateVertex)]] = []
    ∧ find_feasible_path (construct_msg wG wSfc wL []).1 [[], [⟨0, 1, 1⟩]] wSfc wG = none :=
  find_feasible_path_empty_stage (construct_msg wG wSfc wL []).1 [[], [⟨0, 1, 1⟩]] wSfc wG
    (by decide)

-- === Helper lemmas: MSG construction ===

theorem contains_eq_false_iff (l : List Nat) (a : Nat) : l.contains a = false ↔ a ∉ l := by
  simp

theorem mkStageNodes_length (physical_nodes : List PhysicalNode) (used_nodes : List Nat) :
    ∀ (ds : List Int) (k : Nat),
      (mkStageNodes physical_nodes used_nodes k ds).length = ds.length := by
  intro ds
  induction ds with
  | nil => intro k; rfl
  | cons d rest ih => intro k; simp [mkStageNodes, ih]

theorem mkStageNodes_getD (physical_nodes : List PhysicalNode) (used_nodes : List Nat) :
    ∀ (ds : List Int) (k s : Nat), s < ds.length →
      (mkStageNodes physical_nodes used_nodes k ds).getD s [] =
        (physical_nodes.filter
            (fun n => n.has_resources (ds.getD s 0) && !(used_nodes.contains n.id))).map
          (fun n => ⟨n.id, k + s, ds.getD s 0⟩) := by
  intro ds
  induction ds with
  | nil => intro k s h; simp at h
  | cons d rest ih =>
      intro k s h
      cases s with
      | zero => simp [mkStageNodes]
      | succ s' =>
          have h' : s' < rest.length := by simpa using h
          have := ih (k + 1) s' h'
          simpa [mkStageNodes, Nat.add_assoc, Nat.add_comm 1 s'] using this

theorem stage_member_spec (physical_nodes : List PhysicalNode) (used_nodes : List Nat) :
    ∀ (ds : List Int) (k : Nat) (s : List CandidateVertex),
      s ∈ mkStageNodes physical_nodes used_nodes k ds → ∀ v ∈ s,
        ∃ n ∈ physical_nodes, n.id = v.physical
          ∧ v.cpu ≤ n.cpu - n.used_cpu ∧ v.physical ∉ used_nodes := by
  intro ds
  induction ds with
  | nil => intro k s h; simp [mkStageNodes] at h
  | cons d rest ih =>
      intro k s h v hv
      rcases List.mem_cons.1 h with rfl | h
      · rcases List.mem_map.1 hv with ⟨n, hn, rfl⟩
        rcases List.mem_filter.1 hn with ⟨hnmem, hcond⟩
        simp only [Bool.and_eq_true, Bool.not_eq_true'] at hcond
        refine ⟨n, hnmem, rfl, ?_, ?_⟩
        · exact of_decide_eq_true hcond.1
        · exact (contains_eq_false_iff _ _).1 hcond.2
      · exact ih (k + 1) s h v hv

theorem msgOf_hasEdge (Gp : Graph) (sn : List (List CandidateVertex))
    (u v : CandidateVertex) :
    (msgOf Gp sn).hasEdge u v =
      (msgEdgeList Gp sn).any (fun e => e.1 == u && e.2.1 == v) := rfl

theorem msgOf_edgeDelay (Gp : Graph) (sn : List (List CandidateVertex))
    (u v : CandidateVertex) :
    (msgOf Gp sn).edgeDelay u v =
      (((msgEdgeList Gp sn).find? (fun e => e.1 == u && e.2.1 == v)).map
        (fun e => e.2.2.1)).getD 0 := rfl

theorem msgOf_edgeCost (Gp : Graph) (sn : List (List CandidateVertex))
    (u v : CandidateVertex) :
    (msgOf Gp sn).edgeCost u v =
      (((msgEdgeList Gp sn).find? (fun e => e.1 == u && e.2.1 == v)).map
        (fun e => e.2.2.2)).getD 0 := rfl

theorem mem_msgEdgeList (Gp : Graph) (sn : List (List CandidateVertex))
    (e : CandidateVertex × CandidateVertex × Int × Int) :
    e ∈ msgEdgeList Gp sn ↔
      ∃ i, i + 1 < sn.length ∧ e.1 ∈ sn.getD i [] ∧ e.2.1 ∈ sn.getD (i + 1) []
        ∧ e.1.physical ≠ e.2.1.physical ∧ Gp.has_path e.1.physical e.2.1.physical = true
        ∧ e.2.2.1 = Gp.sp_delay e.1.physical e.2.1.physical
        ∧ e.2.2.2 = Gp.sp_cost e.1.physical e.2.1.physical := by
  obtain ⟨u, v, dl, cs⟩ := e
  unfold msgEdgeList
  simp only [List.mem_flatMap, List.mem_filterMap, List.mem_range]
  constructor
  · rintro ⟨i, hi, u', hu', v', hv', he⟩
    by_cases hc : u'.physical ≠ v'.physical ∧ Gp.has_path u'.physical v'.physical = true
    · rw [if_pos hc] at he
      obtain ⟨rfl, rfl, rfl, rfl⟩ : u' = u ∧ v' = v
          ∧ Gp.sp_delay u'.physical v'.physical = dl
          ∧ Gp.sp_cost u'.physical v'.physical = cs := by
        have h1 := Option.some.inj he
        exact ⟨congrArg Prod.fst h1, congrArg (fun t => t.2.1) h1,
          congrArg (fun t => t.2.2.1) h1, congrArg (fun t => t.2.2.2) h1⟩
      exact ⟨i, by omega, hu', hv', hc.1, hc.2, rfl, rfl⟩
    · rw [if_neg hc] at he
      exact absurd he (by simp)
  · rintro ⟨i, hi, hu, hv, hne, hpath, rfl, rfl⟩
    refine ⟨i, by omega, u, hu, v, hv, ?_⟩
    rw [if_pos ⟨hne, hpath⟩]

/-- Claim C4: `construct_msg`'s stage-`s` candidate list contains exactly the
hosts whose headroom (capacity minus used cpu) covers the stage-`s` demand and
whose id is not excluded; it has a directed edge from a stage-`i` vertex `u`
to a stage-`(i+1)` vertex `v` exactly when their host ids differ and a
substrate path exists between them, and such an edge is labeled with the
delay-weighted shortest path's total delay and total cost. The ledger is only
read (the embedding of `construct_msg` is a pure function of it). -/
theorem construct_msg_spec (Gp : Graph) (sfc : SFCRequest)
    (physical_nodes : List PhysicalNode) (used_nodes : List Nat) :
    ((construct_msg Gp sfc physical_nodes used_nodes).2.length = sfc.stages.length)
    ∧ (∀ s, s < sfc.stages.length → ∀ v : CandidateVertex,
        v ∈ (construct_msg Gp sfc physical_nodes used_nodes).2.getD s [] ↔
          ∃ n ∈ physical_nodes, sfc.stages.getD s 0 ≤ n.cpu - n.used_cpu
            ∧ n.id ∉ used_nodes ∧ v = ⟨n.id, s, sfc.stages.getD s 0⟩)
    ∧ (∀ u v : CandidateVertex,
        (construct_msg Gp sfc physical_nodes used_nodes).1.hasEdge u v = true ↔
          ∃ i, i + 1 < (construct_msg Gp sfc physical_nodes used_nodes).2.length
            ∧ u ∈ (construct_msg Gp sfc physical_nodes used_nodes).2.getD i []
            ∧ v ∈ (construct_msg Gp sfc physical_nodes used_nodes).2.getD (i + 1) []
            ∧ u.physical ≠ v.physical ∧ Gp.has_path u.physical v.physical = true)
    ∧ (∀ u v : CandidateVertex,
        (construct_msg Gp sfc physical_nodes used_nodes).1.hasEdge u v = true →
          (construct_msg Gp sfc physical_nodes used_nodes).1.edgeDelay u v
              = Gp.sp_delay u.physical v.physical
          ∧ (construct_msg Gp sfc physical_nodes used_nodes).1.edgeCost u v
              = Gp.sp_cost u.physical v.physical) := by
  simp only [construct_msg]
  refine ⟨mkStageNodes_length _ _ _ _, ?_, ?_, ?_⟩
  · intro s hs v
    rw [mkStageNodes_getD physical_nodes used_nodes sfc.stages 0 s hs]
    simp only [List.mem_map, List.mem_filter, Bool.and_eq_true, Bool.not_eq_true']
    constructor
    · rintro ⟨n, ⟨hnmem, hres, hused⟩, rfl⟩
      exact ⟨n, hnmem, of_decide_eq_true hres, (contains_eq_false_iff _ _).1 hused,
        by simp [Nat.zero_add]⟩
    · rintro ⟨n, hnmem, hres, hused, rfl⟩
      exact ⟨n, ⟨hnmem, decide_eq_true hres, (contains_eq_false_iff _ _).2 hused⟩,
        by simp [Nat.zero_add]⟩
  · intro u v
    rw [msgOf_hasEdge, List.any_eq_true]
    constructor
    · rintro ⟨e, he, hpred⟩
      simp only [Bool.and_eq_true, beq_iff_eq] at hpred
      rcases hpred with ⟨h1, h2⟩
      rcases (mem_msgEdgeList Gp _ e).1 he with ⟨i, hi, hu, hv, hne, hpath, _, _⟩
      rw [h1] at hu hne hpath
      rw [h2] at hv hne hpath
      exact ⟨i, hi, hu, hv, hne, hpath⟩
    · rintro ⟨i, hi, hu, hv, hne, hpath⟩
      refine ⟨(u, v, Gp.sp_delay u.physical v.physical, Gp.sp_cost u.physical v.physical),
        (mem_msgEdgeList Gp _ _).2 ⟨i, hi, hu, hv, hne, hpath, rfl, rfl⟩, by simp⟩
  · intro u v he
    rw [msgOf_hasEdge, List.any_eq_true] at he
    rcases he with ⟨e, hemem, hpred⟩
    have hfind : ((msgEdgeList Gp (mkStageNodes physical_nodes used_nodes 0 sfc.stages)).find?
        (fun e => e.1 == u && e.2.1 == v)).isSome := by
      rw [List.find?_isSome]
      exact ⟨e, hemem, hpred⟩
    rcases Option.isSome_iff_exists.1 hfind with ⟨e', hfind'⟩
    have he'mem := List.mem_of_find?_eq_some hfind'
    have he'pred := List.find?_some hfind'
    simp only [Bool.and_eq_true, beq_iff_eq] at he'pred
    rcases (mem_msgEdgeList Gp _ e').1 he'mem with ⟨i, _, _, _, _, _, hdl, hcs⟩
    rw [msgOf_edgeDelay, msgOf_edgeCost, hfind']
    simp only [Option.map_some', Option.getD_some]
    rw [hdl, hcs, he'pred.1, he'pred.2]
    exact ⟨rfl, rfl⟩

/-- Witness for C4 at a concrete instance: host 0 qualifies for stage 0 of the
two-stage request on the fresh ledger. -/
theorem construct_msg_spec_witness :
    (⟨0, 0, 2⟩ : CandidateVertex) ∈ (construct_msg wG wSfc wL []).2.getD 0 [] :=
  ((construct_msg_spec wG wSfc wL []).2.1 0 (by decide) ⟨0, 0, 2⟩).2
    ⟨⟨0, 7, 0, false⟩, by decide, by decide, by decide, by decide⟩

-- === Helper lemmas: ledger indexing ===

theorem getD_set_self (L : List PhysicalNode) (i : Nat) (a : PhysicalNode)
    (h : i < L.length) : (L.set i a).getD i default = a := by
  induction L generalizing i with
  | nil => simp at h
  | cons x xs ih =>
      cases i with
      | zero => rfl
      | succ i' => simpa using ih i' (by simpa using h)

theorem getD_set_other (L : List PhysicalNode) (i j : Nat) (a : PhysicalNode)
    (h : j ≠ i) : (L.set i a).getD j default = L.getD j default := by
  induction L generalizing i j with
  | nil => simp
  | cons x xs ih =>
      cases i with
      | zero =>
          cases j with
          | zero => exact absurd rfl h
          | succ j' => simp
      | succ i' =>
          cases j with
          | zero => simp
          | succ j' =>
              have h' : j' ≠ i' := fun hc => h (by rw [hc])
              simpa using ih i' j' h'

theorem mem_iff_getD (L : List PhysicalNode) (n : PhysicalNode) :
    n ∈ L ↔ ∃ j, j < L.length ∧ L.getD j default = n := by
  induction L with
  | nil => simp
  | cons x xs ih =>
      constructor
      · intro h
        rcases List.mem_cons.1 h with rfl | h
        · exact ⟨0, by simp, rfl⟩
        · rcases ih.1 h with ⟨j, hj, hg⟩
          exact ⟨j + 1, by simpa using hj, by simpa using hg⟩
      · rintro ⟨j, hj, hg⟩
        cases j with
        | zero => exact hg ▸ List.mem_cons_self _ _
        | succ j' =>
            exact List.mem_cons_of_mem _ (ih.2 ⟨j', by simpa using hj, by simpa using hg⟩)

theorem wfFrom_iff_getD : ∀ (L : List PhysicalNode) (k : Nat),
    wfFrom k L = true ↔ ∀ j, j < L.length → (L.getD j default).id = k + j := by
  intro L
  induction L with
  | nil => intro k; simp [wfFrom]
  | cons x xs ih =>
      intro k
      simp only [wfFrom, Bool.and_eq_true, beq_iff_eq]
      constructor
      · rintro ⟨hx, hrest⟩ j hj
        cases j with
        | zero => simpa using hx
        | succ j' =>
            have := (ih (k + 1)).1 hrest j' (by simpa using hj)
            simpa [Nat.add_assoc, Nat.add_comm 1 j'] using this
      · intro h
        refine ⟨by simpa using h 0 (by simp), (ih (k + 1)).2 ?_⟩
        intro j' hj'
        have := h (j' + 1) (by simpa using hj')
        simpa [Nat.add_assoc, Nat.add_comm 1 j'] using this

theorem wf_lookup (L : List PhysicalNode) (hwf : wfFrom 0 L = true) (n : PhysicalNode)
    (hn : n ∈ L) : n.id < L.length ∧ L.getD n.id default = n := by
  rcases (mem_iff_getD L n).1 hn with ⟨j, hj, hg⟩
  have hid : n.id = j := by
    have := (wfFrom_iff_getD L 0).1 hwf j hj
    rw [hg] at this
    simpa using this
  rw [hid]
  exact ⟨hj, hg⟩

-- === Helper lemmas: the reservation committer ===

theorem reserve_resources_cons (v : CandidateVertex) (rest : List CandidateVertex)
    (L : List PhysicalNode) :
    reserve_resources (v :: rest) L =
      ((if (L.getD v.physical default).activated then 0 else NODE_ACTIVATION_COST)
          + v.cpu * PE_DEPLOY_UNIT_COST
          + (reserve_resources rest
              (L.set v.physical ((L.getD v.physical default).reserve v.cpu))).1,
        (reserve_resources rest
          (L.set v.physical ((L.getD v.physical default).reserve v.cpu))).2) := rfl

/-- Full characterization of `reserve_resources` on a chain with
pairwise-distinct in-range host ids: the ledger keeps its length, hosts off
the chain are untouched, each chain host ends activated with its used cpu
raised by the stage demand, and the returned extra cost is the deployment
charge for every stage plus one activation charge for every chain host that
was not yet activated. -/
theorem reserve_resources_spec (p : List CandidateVertex) : ∀ L : List PhysicalNode,
    allDistinct (p.map (fun v => v.physical)) = true →
    (∀ v ∈ p, v.physical < L.length) →
    (reserve_resources p L).2.length = L.length
    ∧ (∀ j, j ∉ p.map (fun v => v.physical) →
        (reserve_resources p L).2.getD j default = L.getD j default)
    ∧ (∀ v ∈ p, (reserve_resources p L).2.getD v.physical default =
        { L.getD v.physical default with
          activated := true
          used_cpu := (L.getD v.physical default).used_cpu + v.cpu })
    ∧ (reserve_resources p L).1 =
        (p.map (fun v => v.cpu * PE_DEPLOY_UNIT_COST)).sum
          + ((p.filter (fun v => !(L.getD v.physical default).activated)).length : Int)
              * NODE_ACTIVATION_COST := by
  induction p with
  | nil =>
      intro L _ _
      exact ⟨rfl, fun j _ => rfl, by simp, by simp [reserve_resources]⟩
  | cons v rest ih =>
      intro L hdist hrange
      have hdist' : (!((rest.map (fun w => w.physical)).contains v.physical)
          && allDistinct (rest.map (fun w => w.physical))) = true := hdist
      simp only [Bool.and_eq_true, Bool.not_eq_true'] at hdist'
      obtain ⟨hnotin, hdrest⟩ := hdist'
      have hnotin' : v.physical ∉ rest.map (fun w => w.physical) :=
        (contains_eq_false_iff _ _).1 hnotin
      have hvlen : v.physical < L.length := hrange v (List.mem_cons_self _ _)
      have hgset : (L.set v.physical ((L.getD v.physical default).reserve v.cpu)).getD
          v.physical default = (L.getD v.physical default).reserve v.cpu :=
        getD_set_self L v.physical _ hvlen
      have hgother : ∀ j, j ≠ v.physical →
          (L.set v.physical ((L.getD v.physical default).reserve v.cpu)).getD j default
            = L.getD j default :=
        fun j hj => getD_set_other L v.physical j _ hj
      have hlenset : (L.set v.physical ((L.getD v.physical default).reserve v.cpu)).length
          = L.length := by simp
      have hrange' : ∀ w ∈ rest,
          w.physical < (L.set v.physical ((L.getD v.physical default).reserve v.cpu)).length :=
        fun w hw => hlenset ▸ hrange w (List.mem_cons_of_mem _ hw)
      have hwne : ∀ w ∈ rest, w.physical ≠ v.physical := by
        intro w hw hc
        exact hnotin' (hc ▸ List.mem_map.2 ⟨w, hw, rfl⟩)
      obtain ⟨ihlen, ihun, iheff, ihcost⟩ :=
        ih (L.set v.physical ((L.getD v.physical default).reserve v.cpu)) hdrest hrange'
      rw [reserve_resources_cons]
      refine ⟨by rw [ihlen, hlenset], ?_, ?_, ?_⟩
      · intro j hj
        simp only [List.map_cons, List.mem_cons, not_or] at hj
        rw [ihun j hj.2, hgother j hj.1]
      · intro w hw
        rcases List.mem_cons.1 hw with rfl | hw
        · rw [ihun w.physical hnotin', hgset]
          rfl
        · rw [iheff w hw, hgother w.physical (hwne w hw)]
      · have hfilter : rest.filter (fun w =>
            !((L.set v.physical ((L.getD v.physical default).reserve v.cpu)).getD
                w.physical default).activated)
            = rest.filter (fun w => !(L.getD w.physical default).activated) := by
          apply List.filter_congr
          intro w hw
          rw [hgother w.physical (hwne w hw)]
        rw [ihcost, hfilter]
        simp only [List.map_cons, List.sum_cons, List.filter_cons]
        cases hact : (L.getD v.physical default).activated with
        | true =>
            simp only [if_true, Bool.not_true, Bool.false_eq_true, if_false]
            ring
        | false =>
            simp only [Bool.false_eq_true, if_false, Bool.not_false, if_true,
              List.length_cons]
            push_cast
            ring

/-- Claim C6: for a committed chain (pairwise-distinct, in-range host ids),
`reserve_resources` returns exactly the sum over the chain's vertices of the
stage demand times the per-unit deployment charge, plus one fixed activation
charge per vertex whose host is not activated when visited (with distinct
hosts: not activated in the incoming ledger); and it marks every visited host
activated with its used cpu increased by the stage demand, leaving all other
hosts untouched. -/
theorem reserve_resources_correct (p : List CandidateVertex) (L : List PhysicalNode)
    (hdist : allDistinct (p.map (fun v => v.physical)) = true)
    (hrange : ∀ v ∈ p, v.physical < L.length) :
    (reserve_resources p L).1 =
        (p.map (fun v => v.cpu * PE_DEPLOY_UNIT_COST)).sum
          + ((p.filter (fun v => !(L.getD v.physical default).activated)).length : Int)
              * NODE_ACTIVATION_COST
    ∧ (∀ v ∈ p, (reserve_resources p L).2.getD v.physical default =
        { L.getD v.physical default with
          activated := true
          used_cpu := (L.getD v.physical default).used_cpu + v.cpu })
    ∧ (∀ j, j ∉ p.map (fun v => v.physical) →
        (reserve_resources p L).2.getD j default = L.getD j default)
    ∧ (reserve_resources p L).2.length = L.length := by
  obtain ⟨h1, h2, h3, h4⟩ := reserve_resources_spec p L hdist hrange
  exact ⟨h4, h3, h2, h1⟩

/-- Witness for C6 at a concrete instance. -/
theorem reserve_resources_correct_witness :
    (reserve_resources [⟨0, 0, 2⟩, ⟨2, 1, 1⟩] wL).1 =
        (([⟨0, 0, 2⟩, ⟨2, 1, 1⟩] : List CandidateVertex).map
          (fun v => v.cpu * PE_DEPLOY_UNIT_COST)).sum
          + ((([⟨0, 0, 2⟩, ⟨2, 1, 1⟩] : List CandidateVertex).filter
              (fun v => !(wL.getD v.physical default).activated)).length : Int)
              * NODE_ACTIVATION_COST :=
  (reserve_resources_correct [⟨0, 0, 2⟩, ⟨2, 1, 1⟩] wL (by decide) (by decide)).1

-- === Helper lemmas: the per-request pipeline, branch by branch ===

theorem getD_mem (L : List PhysicalNode) (j : Nat) (h : j < L.length) :
    L.getD j default ∈ L := (mem_iff_getD L _).2 ⟨j, h, rfl⟩

theorem find_some_props (M : MSG) (sn : List (List CandidateVertex)) (sfc : SFCRequest)
    (Gp : Graph) (p : List CandidateVertex) (d c : Int)
    (h : find_feasible_path M sn sfc Gp = some (p, d, c)) :
    p ∈ listProd sn ∧ allDistinct (p.map (fun v => v.physical)) = true := by
  have hs := (search_spec (evalPath M sfc Gp) (validChain M sfc Gp) (totalDelay M sfc Gp)
    (totalCost M sfc Gp) (evalPath_eq M sfc Gp) sn).2 p d c h
  refine ⟨hs.1, ?_⟩
  have hv := hs.2.1
  unfold validChain at hv
  simp only [Bool.and_eq_true] at hv
  exact hv.1.1

theorem chain_headroom (Gp : Graph) (sfc : SFCRequest) (L : List PhysicalNode)
    (used : List Nat) (p : List CandidateVertex)
    (hwf : wfFrom 0 L = true)
    (hp : p ∈ listProd (construct_msg Gp sfc L used).2) :
    ∀ v ∈ p, v.physical < L.length
      ∧ (L.getD v.physical default).used_cpu + v.cpu ≤ (L.getD v.physical default).cpu
      ∧ v.physical ∉ used := by
  intro v hv
  rcases stages_of_mem_listProd _ _ hp v hv with ⟨s, hs, hvs⟩
  have hs' : s ∈ mkStageNodes L used 0 sfc.stages := hs
  rcases stage_member_spec L used sfc.stages 0 s hs' v hvs with ⟨n, hn, hid, hres, hnu⟩
  rcases wf_lookup L hwf n hn with ⟨hlt, hget⟩
  rw [hid] at hlt hget
  refine ⟨hlt, ?_, hnu⟩
  rw [hget]
  omega

theorem reserve_preserves_CapOK (p : List CandidateVertex) (L : List PhysicalNode)
    (hdist : allDistinct (p.map (fun v => v.physical)) = true)
    (hhead : ∀ v ∈ p, v.physical < L.length
      ∧ (L.getD v.physical default).used_cpu + v.cpu ≤ (L.getD v.physical default).cpu)
    (hcap : CapOK L) : CapOK (reserve_resources p L).2 := by
  obtain ⟨hlen, hun, heff, _⟩ := reserve_resources_spec p L hdist (fun v hv => (hhead v hv).1)
  intro m hm
  rcases (mem_iff_getD _ m).1 hm with ⟨j, hj, hg⟩
  rw [hlen] at hj
  by_cases hjp : j ∈ p.map (fun v => v.physical)
  · rcases List.mem_map.1 hjp with ⟨v, hv, rfl⟩
    rw [heff v hv] at hg
    rw [← hg]
    have := (hhead v hv).2
    simpa using this
  · rw [hun j hjp] at hg
    rw [← hg]
    exact hcap _ (getD_mem L j hj)

theorem reserve_preserves_wf (p : List CandidateVertex) (L : List PhysicalNode)
    (hdist : allDistinct (p.map (fun v => v.physical)) = true)
    (hrange : ∀ v ∈ p, v.physical < L.length)
    (hwf : wfFrom 0 L = true) : wfFrom 0 (reserve_resources p L).2 = true := by
  obtain ⟨hlen, hun, heff, _⟩ := reserve_resources_spec p L hdist hrange
  rw [wfFrom_iff_getD]
  intro j hj
  rw [hlen] at hj
  by_cases hjp : j ∈ p.map (fun v => v.physical)
  · rcases List.mem_map.1 hjp with ⟨v, hv, rfl⟩
    rw [heff v hv]
    have := (wfFrom_iff_getD L 0).1 hwf v.physical (hrange v hv)
    simpa using this
  · rw [hun j hjp]
    exact (wfFrom_iff_getD L 0).1 hwf j hj

theorem process_request_stage_empty (Gp : Graph) (L : List PhysicalNode) (sfc : SFCRequest)
    (h : ((construct_msg Gp sfc L []).2.all (fun s => !s.isEmpty)) = false) :
    process_request Gp L sfc = (L, none, []) := by
  simp only [process_request]
  rw [if_neg (by simp [h])]

theorem process_request_no_active (Gp : Graph) (L : List PhysicalNode) (sfc : SFCRequest)
    (hall : ((construct_msg Gp sfc L []).2.all (fun s => !s.isEmpty)) = true)
    (hfa : find_feasible_path (construct_msg Gp sfc L []).1 (construct_msg Gp sfc L []).2
        sfc Gp = none) :
    process_request Gp L sfc = (L, none, []) := by
  simp only [process_request]
  rw [if_pos (by simp [hall]), hfa]

theorem process_request_no_backup (Gp : Graph) (L : List PhysicalNode) (sfc : SFCRequest)
    (pa : List CandidateVertex) (da ca : Int)
    (hall : ((construct_msg Gp sfc L []).2.all (fun s => !s.isEmpty)) = true)
    (hfa : find_feasible_path (construct_msg Gp sfc L []).1 (construct_msg Gp sfc L []).2
        sfc Gp = some (pa, da, ca))
    (hfb : find_feasible_path
        (construct_msg Gp sfc (reserve_resources pa L).2 (pa.map (fun v => v.physical))).1
        (construct_msg Gp sfc (reserve_resources pa L).2 (pa.map (fun v => v.physical))).2
        sfc Gp = none) :
    process_request Gp L sfc = ((reserve_resources pa L).2,
      some (mkRecordNoBackup sfc pa da ca (reserve_resources pa L).1),
      [(reserve_resources pa L).2]) := by
  simp only [process_request]
  rw [if_pos (by simp [hall]), hfa]
  simp only [hfb]

theorem process_request_with_backup (Gp : Graph) (L : List PhysicalNode) (sfc : SFCRequest)
    (pa : List CandidateVertex) (da ca : Int) (pb : List CandidateVertex) (db cb : Int)
    (hall : ((construct_msg Gp sfc L []).2.all (fun s => !s.isEmpty)) = true)
    (hfa : find_feasible_path (construct_msg Gp sfc L []).1 (construct_msg Gp sfc L []).2
        sfc Gp = some (pa, da, ca))
    (hfb : find_feasible_path
        (construct_msg Gp sfc (reserve_resources pa L).2 (pa.map (fun v => v.physical))).1
        (construct_msg Gp sfc (reserve_resources pa L).2 (pa.map (fun v => v.physical))).2
        sfc Gp = some (pb, db, cb)) :
    process_request Gp L sfc =
      ((reserve_resources pb (reserve_resources pa L).2).2,
        some (mkRecordBackup Gp sfc pa da ca (reserve_resources pa L).1
          pb db cb (reserve_resources pb (reserve_resources pa L).2).1),
        [(reserve_resources pa L).2, (reserve_resources pb (reserve_resources pa L).2).2]) := by
  simp only [process_request]
  rw [if_pos (by simp [hall]), hfa]
  simp only [hfb]

/-- Preservation of the capacity invariant and ledger well-formedness through
one request, including both intermediate post-commit ledger states. -/
theorem process_request_preserves (Gp : Graph) (L : List PhysicalNode) (sfc : SFCRequest)
    (hwf : wfFrom 0 L = true) (hcap : CapOK L) :
    CapOK (process_request Gp L sfc).1 ∧ wfFrom 0 (process_request Gp L sfc).1 = true
    ∧ ∀ T ∈ (process_request Gp L sfc).2.2, CapOK T := by
  rcases hall : ((construct_msg Gp sfc L []).2.all (fun s => !s.isEmpty)) with _ | _
  · rw [process_request_stage_empty Gp L sfc hall]
    exact ⟨hcap, hwf, by simp⟩
  · rcases hfa : find_feasible_path (construct_msg Gp sfc L []).1
        (construct_msg Gp sfc L []).2 sfc Gp with _ | r
    · rw [process_request_no_active Gp L sfc hall hfa]
      exact ⟨hcap, hwf, by simp⟩
    · obtain ⟨pa, da, ca⟩ := r
      obtain ⟨hmem, hdist⟩ := find_some_props _ _ _ _ _ _ _ hfa
      have hhead := chain_headroom Gp sfc L [] pa hwf hmem
      have hcap1 : CapOK (reserve_resources pa L).2 :=
        reserve_preserves_CapOK pa L hdist
          (fun v hv => ⟨(hhead v hv).1, (hhead v hv).2.1⟩) hcap
      have hwf1 : wfFrom 0 (reserve_resources pa L).2 = true :=
        reserve_preserves_wf pa L hdist (fun v hv => (hhead v hv).1) hwf
      rcases hfb : find_feasible_path
          (construct_msg Gp sfc (reserve_resources pa L).2 (pa.map (fun v => v.physical))).1
          (construct_msg Gp sfc (reserve_resources pa L).2 (pa.map (fun v => v.physical))).2
          sfc Gp with _ | rb
      · rw [process_request_no_backup Gp L sfc pa da ca hall hfa hfb]
        refine ⟨hcap1, hwf1, ?_⟩
        intro T hT
        rcases List.mem_singleton.1 hT with rfl
        exact hcap1
      · obtain ⟨pb, db, cb⟩ := rb
        obtain ⟨hmemb, hdistb⟩ := find_some_props _ _ _ _ _ _ _ hfb
        have hheadb := chain_headroom Gp sfc (reserve_resources pa L).2 _ pb hwf1 hmemb
        have hcap2 : CapOK (reserve_resources pb (reserve_resources pa L).2).2 :=
          reserve_preserves_CapOK pb _ hdistb
            (fun v hv => ⟨(hheadb v hv).1, (hheadb v hv).2.1⟩) hcap1
        have hwf2 : wfFrom 0 (reserve_resources pb (reserve_resources pa L).2).2 = true :=
          reserve_preserves_wf pb _ hdistb (fun v hv => (hheadb v hv).1) hwf1
        rw [process_request_with_backup Gp L sfc pa da ca pb db cb hall hfa hfb]
        refine ⟨hcap2, hwf2, ?_⟩
        intro T hT
        rcases List.mem_cons.1 hT with rfl | hT
        · exact hcap1
        · rcases List.mem_singleton.1 hT with rfl
          exact hcap2

/-- Claim C2: starting from a well-formed ledger (host ids equal list
positions, as `run_simulation` creates it) with `used_cpu = 0` and positive
capacities, the capacity invariant `used_cpu ≤ cpu_capacity` holds for every
host initially, after the whole batch, and at every intermediate post-commit
ledger state (MSG construction and search never change the ledger, which is
threaded around them unchanged). -/
theorem run_batch_capacity_invariant (Gp : Graph) (reqs : List SFCRequest)
    (L0 : List PhysicalNode) (hwf : wfFrom 0 L0 = true)
    (hinit : ∀ n ∈ L0, n.used_cpu = 0 ∧ 0 < n.cpu) :
    CapOK L0 ∧ CapOK (run_batch Gp reqs L0).1
    ∧ ∀ T ∈ (run_batch Gp reqs L0).2.2, CapOK T := by
  have hcap0 : CapOK L0 := by
    intro n hn
    have h := hinit n hn
    rw [h.1]
    exact le_of_lt h.2
  refine ⟨hcap0, ?_⟩
  suffices h : ∀ (rs : List SFCRequest) (L : List PhysicalNode),
      CapOK L → wfFrom 0 L = true →
      CapOK (run_batch Gp rs L).1 ∧ ∀ T ∈ (run_batch Gp rs L).2.2, CapOK T from
    h reqs L0 hcap0 hwf
  intro rs
  induction rs with
  | nil =>
      intro L hc _
      exact ⟨hc, by simp [run_batch]⟩
  | cons sfc rest ih =>
      intro L hc hw
      obtain ⟨hc1, hw1, hTs⟩ := process_request_preserves Gp L sfc hw hc
      obtain ⟨hcf, hTs'⟩ := ih (process_request Gp L sfc).1 hc1 hw1
      constructor
      · simpa [run_batch] using hcf
      · intro T hT
        simp only [run_batch, List.mem_append] at hT
        rcases hT with hT | hT
        · exact hTs T hT
        · exact hTs' T hT

/-- Witness for C2 at a concrete batch run. -/
theorem run_batch_capacity_invariant_witness :
    CapOK wL ∧ CapOK (run_batch wG [wSfc, wSfc1] wL).1
    ∧ ∀ T ∈ (run_batch wG [wSfc, wSfc1] wL).2.2, CapOK T :=
  run_batch_capacity_invariant wG [wSfc, wSfc1] wL (by decide) (by decide)

-- === Claim theorems: backup disjointness, cost accounting, failure handling ===

/-- Claim C3: whenever a request's record carries both chains, the backup
chain's host-id set is disjoint from the active chain's, because the backup
MSG is constructed with the active chain's host ids as the exclusion set and
`construct_msg` never admits an excluded host into any stage. -/
theorem active_backup_disjoint (Gp : Graph) (L : List PhysicalNode) (sfc : SFCRequest)
    (pl : Placement) (h : (process_request Gp L sfc).2.1 = some pl)
    (hb : pl.backup_path ≠ []) :
    ∀ v ∈ pl.backup_path, v.physical ∉ pl.active_path.map (fun w => w.physical) := by
  rcases hall : ((construct_msg Gp sfc L []).2.all (fun s => !s.isEmpty)) with _ | _
  · rw [process_request_stage_empty Gp L sfc hall] at h
    exact absurd h (by simp)
  · rcases hfa : find_feasible_path (construct_msg Gp sfc L []).1
        (construct_msg Gp sfc L []).2 sfc Gp with _ | r
    · rw [process_request_no_active Gp L sfc hall hfa] at h
      exact absurd h (by simp)
    · obtain ⟨pa, da, ca⟩ := r
      rcases hfb : find_feasible_path
          (construct_msg Gp sfc (reserve_resources pa L).2 (pa.map (fun v => v.physical))).1
          (construct_msg Gp sfc (reserve_resources pa L).2 (pa.map (fun v => v.physical))).2
          sfc Gp with _ | rb
      · rw [process_request_no_backup Gp L sfc pa da ca hall hfa hfb] at h
        have hpl : mkRecordNoBackup sfc pa da ca (reserve_resources pa L).1 = pl :=
          Option.some.inj h
        rw [← hpl] at hb
        exact absurd rfl hb
      · obtain ⟨pb, db, cb⟩ := rb
        rw [process_request_with_backup Gp L sfc pa da ca pb db cb hall hfa hfb] at h
        have hpl : mkRecordBackup Gp sfc pa da ca (reserve_resources pa L).1
            pb db cb (reserve_resources pb (reserve_resources pa L).2).1 = pl :=
          Option.some.inj h
        subst hpl
        obtain ⟨hmemb, _⟩ := find_some_props _ _ _ _ _ _ _ hfb
        intro v hv
        rcases stages_of_mem_listProd _ _ hmemb v hv with ⟨s, hs, hvs⟩
        have hs' : s ∈ mkStageNodes (reserve_resources pa L).2
            (pa.map (fun w => w.physical)) 0 sfc.stages := hs
        rcases stage_member_spec _ _ sfc.stages 0 s hs' v hvs with ⟨n, _, _, _, hnu⟩
        exact hnu

/-- Witness for C3 at a concrete instance with both chains present: the sole
backup host (host 1) is not among the active chain's hosts. -/
theorem active_backup_disjoint_witness :
    (⟨1, 0, 1⟩ : CandidateVertex).physical ∉
      ([(⟨0, 0, 1⟩ : CandidateVertex)]).map (fun w => w.physical) :=
  active_backup_disjoint wG wL wSfc1
    ⟨0, 0, 1, [⟨0, 0, 1⟩], 0, 0, [⟨1, 0, 1⟩], 2, 2, 3, 3, 1, 9⟩ (by decide) (by decide)
    ⟨1, 0, 1⟩ (by decide)

/-- Claim C7: every accepted request's recorded total cost equals active chain
cost + backup chain cost + active deployment cost + backup deployment cost +
backup-delay-cost, the three backup terms being recorded as zero when no
backup chain was found, in which case the total equals exactly active chain
cost plus active deployment cost. -/
theorem total_cost_formula (Gp : Graph) (L : List PhysicalNode) (sfc : SFCRequest)
    (hst : sfc.stages ≠ []) (pl : Placement)
    (h : (process_request Gp L sfc).2.1 = some pl) :
    pl.total_cost = pl.active_cost + pl.backup_cost + pl.deploy_cost_active
        + pl.deploy_cost_backup + pl.backup_delay_cost
    ∧ (pl.backup_path = [] → pl.backup_cost = 0 ∧ pl.deploy_cost_backup = 0
        ∧ pl.backup_delay_cost = 0
        ∧ pl.total_cost = pl.active_cost + pl.deploy_cost_active) := by
  rcases hall : ((construct_msg Gp sfc L []).2.all (fun s => !s.isEmpty)) with _ | _
  · rw [process_request_stage_empty Gp L sfc hall] at h
    exact absurd h (by simp)
  · rcases hfa : find_feasible_path (construct_msg Gp sfc L []).1
        (construct_msg Gp sfc L []).2 sfc Gp with _ | r
    · rw [process_request_no_active Gp L sfc hall hfa] at h
      exact absurd h (by simp)
    · obtain ⟨pa, da, ca⟩ := r
      rcases hfb : find_feasible_path
          (construct_msg Gp sfc (reserve_resources pa L).2 (pa.map (fun v => v.physical))).1
          (construct_msg Gp sfc (reserve_resources pa L).2 (pa.map (fun v => v.physical))).2
          sfc Gp with _ | rb
      · rw [process_request_no_backup Gp L sfc pa da ca hall hfa hfb] at h
        have hpl : mkRecordNoBackup sfc pa da ca (reserve_resources pa L).1 = pl :=
          Option.some.inj h
        subst hpl
        refine ⟨by unfold mkRecordNoBackup; ring_nf, fun _ => ⟨rfl, rfl, rfl, rfl⟩⟩
      · obtain ⟨pb, db, cb⟩ := rb
        rw [process_request_with_backup Gp L sfc pa da ca pb db cb hall hfa hfb] at h
        have hpl : mkRecordBackup Gp sfc pa da ca (reserve_resources pa L).1
            pb db cb (reserve_resources pb (reserve_resources pa L).2).1 = pl :=
          Option.some.inj h
        subst hpl
        refine ⟨rfl, ?_⟩
        intro hbe
        exfalso
        obtain ⟨hmemb, _⟩ := find_some_props _ _ _ _ _ _ _ hfb
        have hlen := length_of_mem_listProd _ _ hmemb
        have hlen2 : (construct_msg Gp sfc (reserve_resources pa L).2
            (pa.map (fun v => v.physical))).2.length = sfc.stages.length :=
          mkStageNodes_length _ _ _ _
        have hbe' : pb = [] := hbe
        rw [hbe', hlen2] at hlen
        exact hst (List.length_eq_zero.1 hlen.symm)

/-- Witness for C7 at a concrete instance whose backup search found nothing. -/
theorem total_cost_formula_witness :
    ((8 : Int) = 1 + 0 + 7 + 0 + 0)
    ∧ (([] : List CandidateVertex) = [] → (0 : Int) = 0 ∧ (0 : Int) = 0 ∧ (0 : Int) = 0
        ∧ (8 : Int) = 1 + 7) :=
  total_cost_formula wG wL wSfc (by decide)
    ⟨0, 2, 0, [⟨0, 0, 2⟩, ⟨2, 1, 1⟩], 1, 1, [], 0, 0, 7, 0, 0, 8⟩ (by decide)

/-- Claim C9: when a request fails — a stage-candidate list is empty, or the
active search returns the not-found signal — the ledger is returned completely
unmodified, no placement record is produced for the request, and the batch
continues exactly as if only the remaining requests were processed. -/
theorem request_failure_clean (Gp : Graph) (L : List PhysicalNode) (sfc : SFCRequest)
    (rest : List SFCRequest)
    (h : (∃ s ∈ (construct_msg Gp sfc L []).2, s = [])
      ∨ find_feasible_path (construct_msg Gp sfc L []).1 (construct_msg Gp sfc L []).2
          sfc Gp = none) :
    process_request Gp L sfc = (L, none, [])
    ∧ run_batch Gp (sfc :: rest) L = run_batch Gp rest L := by
  have hpr : process_request Gp L sfc = (L, none, []) := by
    rcases hall : ((construct_msg Gp sfc L []).2.all (fun s => !s.isEmpty)) with _ | _
    · exact process_request_stage_empty Gp L sfc hall
    · rcases h with hemp | hfn
      · exfalso
        rcases hemp with ⟨s, hs, rfl⟩
        have := List.all_eq_true.1 hall _ hs
        simp at this
      · exact process_request_no_active Gp L sfc hall hfn
  refine ⟨hpr, ?_⟩
  simp only [run_batch, hpr, Option.toList_none, List.nil_append]

/-- Witness for C9: a request whose single stage demands more cpu than any
host's capacity fails cleanly. -/
theorem request_failure_clean_witness :
    process_request wG wL ⟨2, 0, 2, [100], 10, 50⟩ = (wL, none, [])
    ∧ run_batch wG [⟨2, 0, 2, [100], 10, 50⟩] wL = run_batch wG [] wL :=
  request_failure_clean wG wL ⟨2, 0, 2, [100], 10, 50⟩ []
    (Or.inl ⟨[], by decide, rfl⟩)

end SFC
